import Mathlib

set_option maxRecDepth 8000

/- Shallow embedding of src/assignment2/huff-compress.py and
   src/assignment2/huff-decompress.py.

   Conventions:
   * Python strings are `List Char`; a token is either a string or the
     integer pseudo-EOF sentinel `EOF_SYMBOL = -1`, modelled by `Tok`.
   * Bits are `Nat` values that are always 0 or 1 (the code only ever
     produces bits from `% 2` and the literals 0 and 1), so the source's
     `byte << 1 | bit` is `byte * 2 + bit`.
   * The float probabilities `count/total` are modelled as exact unreduced
     rationals `Prob`; the source only compares probabilities with `<` and
     adds them, and no theorem below depends on float rounding.
   * Loops that are not structurally recursive carry an explicit fuel
     argument; every call site passes fuel that provably suffices. -/

/-- A token: a Python `str` (as a char list) or the integer pseudo-EOF
sentinel `EOF_SYMBOL = -1` (huff-compress.py line 13). -/
inductive Tok where
  | str : List Char → Tok
  | eof : Tok
deriving DecidableEq, Inhabited

/-- Models `EOF_SYMBOL = -1`. -/
def EOF_SYMBOL : Tok := Tok.eof

/-- Exact unreduced rational, modelling the float probabilities. -/
structure Prob where
  num : Nat
  den : Nat
deriving DecidableEq, Inhabited

/-- Exact comparison `a.num/a.den < b.num/b.den` by cross multiplication. -/
def Prob.lt (a b : Prob) : Bool := a.num * b.den < b.num * a.den

/-- Exact addition, modelling `l.p + r.p` in `build_tree`. -/
def Prob.add (a b : Prob) : Prob := ⟨a.num * b.den + b.num * a.den, a.den * b.den⟩

/-- Huffman tree: `HNodeLeaf` and `HNode` of the source.  An internal node
has exactly two children by construction of this type, mirroring the
`left` and `right` fields of `HNode`. -/
inductive HTree where
  | leaf : Tok → HTree
  | node : HTree → HTree → HTree
deriving DecidableEq, Inhabited

/-- `OrderBy` (huff-compress.py lines 62-85): a heap entry keyed by
probability, carrying a tree node. -/
structure OrderBy where
  value : HTree
  p : Prob
deriving DecidableEq, Inhabited

/-- `OrderBy.__lt__`: compares only the probabilities. -/
def OrderBy.lt (a b : OrderBy) : Bool := a.p.lt b.p

/-- One byte from 8 bits, most significant first: `byte = byte << 1 | bit`
folded over the bits (equal to `byte * 2 + bit` since bits are 0 or 1). -/
def bitsToByte (bits : List Nat) : Nat := bits.foldl (fun byte bit => byte * 2 + bit) 0

/-- Output state: the bytes already written to the file and the pending bit
buffer of `OutputBitstream` (huff-compress.py lines 15-41). -/
structure OutBS where
  out : List Nat
  buffer : List Nat
deriving DecidableEq, Inhabited

/-- The `while len(self.buffer) >= 8` loop of `OutputBitstream.flush`
(lines 25-34).  Fuel bounds the iteration count; `buffer.length` always
suffices since each round removes 8 bits. -/
def flushLoop : Nat → List Nat → List Nat → List Nat × List Nat
  | 0, buffer, acc => (acc, buffer)
  | fuel+1, buffer, acc =>
    if 8 ≤ buffer.length then
      flushLoop fuel (buffer.drop 8) (acc ++ [bitsToByte (buffer.take 8)])
    else (acc, buffer)

/-- `OutputBitstream.flush`. -/
def OutBS.flush (s : OutBS) : OutBS :=
  let r := flushLoop s.buffer.length s.buffer []
  ⟨s.out ++ r.1, r.2⟩

/-- `OutputBitstream.write` (lines 21-23). -/
def OutBS.write (s : OutBS) (bits : List Nat) : OutBS :=
  OutBS.flush ⟨s.out, s.buffer ++ bits⟩

/-- `OutputBitstream.write_eof` (lines 36-41).  The padding amount is
`len(self.buffer) % 8`, exactly as in the source. -/
def OutBS.write_eof (s : OutBS) (bits : List Nat) : OutBS :=
  let buf := s.buffer ++ bits
  let padding_required := buf.length % 8
  OutBS.flush ⟨s.out, if padding_required ≠ 0 then buf ++ List.replicate padding_required 0 else buf⟩

/-- The character class `[a-zA-Z]` of the regex in `word_tokenize`. -/
def isAlpha (c : Char) : Bool := ('a' ≤ c && c ≤ 'z') || ('A' ≤ c && c ≤ 'Z')

/-- The offset loop of `word_tokenize` (huff-compress.py lines 123-142):
each round finds the next maximal alphabetic run (`word_re.search`), emits
the characters before it one by one and then the run; if no run remains,
the dangling characters are emitted one by one.  Fuel bounds the rounds;
`s.length` always suffices. -/
def word_tokenizeGo : Nat → List Char → List (List Char)
  | 0, s => s.map (fun c => [c])
  | fuel+1, s =>
    let pre := s.takeWhile (fun c => !(isAlpha c))
    match s.dropWhile (fun c => !(isAlpha c)) with
    | [] => pre.map (fun c => [c])
    | rest => pre.map (fun c => [c]) ++ [rest.takeWhile (fun c => isAlpha c)]
        ++ word_tokenizeGo fuel (rest.dropWhile (fun c => isAlpha c))

/-- `word_tokenize` (lines 123-142). -/
def word_tokenize (s : List Char) : List (List Char) := word_tokenizeGo s.length s

/-- The symbol-model selector of the `-s` command line option. -/
inductive SymbolModel where
  | char
  | word
deriving DecidableEq

/-- `tokenize` (lines 144-154): char mode lists the characters, word mode
uses `word_tokenize`; both append the pseudo-EOF sentinel. -/
def tokenize (input : List Char) : SymbolModel → List Tok
  | .word => (word_tokenize input).map Tok.str ++ [EOF_SYMBOL]
  | .char => input.map (fun c => Tok.str [c]) ++ [EOF_SYMBOL]

/-- `defaultdict(int)` counting in `calc_probabilites`: an
insertion-ordered association list with counts bumped in place (Python
dicts preserve first-insertion order of keys). -/
def bumpCount : List (Tok × Nat) → Tok → List (Tok × Nat)
  | [], t => [(t, 1)]
  | (k, c) :: rest, t => if k = t then (k, c+1) :: rest else (k, c) :: bumpCount rest t

/-- The `for token in tokens` counting loop of `calc_probabilites`. -/
def countTokens (tokens : List Tok) : List (Tok × Nat) := tokens.foldl bumpCount []

/-- `calc_probabilites` (lines 156-162). -/
def calc_probabilites (tokens : List Tok) : List OrderBy :=
  (countTokens tokens).map (fun x => ⟨HTree.leaf x.1, ⟨x.2, tokens.length⟩⟩)

/-- CPython `heapq._siftdown`: move the entry at `pos` up towards
`startpos` while it is smaller than its parent.  Fuel `pos` suffices since
the position strictly decreases each round. -/
def siftdownAux : Nat → List OrderBy → Nat → Nat → OrderBy → List OrderBy
  | 0, heap, _, pos, newitem => heap.set pos newitem
  | fuel+1, heap, startpos, pos, newitem =>
    if startpos < pos then
      let parentpos := (pos - 1) / 2
      let parent := heap.getD parentpos default
      if OrderBy.lt newitem parent then
        siftdownAux fuel (heap.set pos parent) startpos parentpos newitem
      else heap.set pos newitem
    else heap.set pos newitem

/-- CPython `heapq._siftdown` entry point. -/
def siftdown (heap : List OrderBy) (startpos pos : Nat) : List OrderBy :=
  siftdownAux pos heap startpos pos (heap.getD pos default)

/-- The descent loop of CPython `heapq._siftup`: repeatedly move the
smaller child up, returning the final heap and position.  Fuel `endpos`
suffices since the position strictly increases towards `endpos`. -/
def siftupLoop : Nat → List OrderBy → Nat → Nat → List OrderBy × Nat
  | 0, heap, _, pos => (heap, pos)
  | fuel+1, heap, endpos, pos =>
    let childpos := 2*pos + 1
    if childpos < endpos then
      let rightpos := childpos + 1
      let childpos2 :=
        if rightpos < endpos ∧ OrderBy.lt (heap.getD childpos default) (heap.getD rightpos default) = false
        then rightpos else childpos
      siftupLoop fuel (heap.set pos (heap.getD childpos2 default)) endpos childpos2
    else (heap, pos)

/-- CPython `heapq._siftup`. -/
def siftup (heap : List OrderBy) (pos : Nat) : List OrderBy :=
  let newitem := heap.getD pos default
  let hp := siftupLoop heap.length heap heap.length pos
  siftdown (hp.1.set hp.2 newitem) pos hp.2

/-- The `for i in reversed(range(n//2))` loop of CPython `heapq.heapify`. -/
def heapifyAux : List OrderBy → Nat → List OrderBy
  | heap, 0 => heap
  | heap, i+1 => heapifyAux (siftup heap i) i

/-- CPython `heapq.heapify`. -/
def heapify (heap : List OrderBy) : List OrderBy := heapifyAux heap (heap.length / 2)

/-- CPython `heapq.heappush`. -/
def heappush (heap : List OrderBy) (item : OrderBy) : List OrderBy :=
  let h := heap ++ [item]
  siftdown h 0 (h.length - 1)

/-- CPython `heapq.heappop`: pop the last element; if the heap is still
nonempty, the root is returned and the last element sifted down from the
root.  (The source only pops nonempty heaps.) -/
def heappop (heap : List OrderBy) : OrderBy × List OrderBy :=
  let lastelt := heap.getLastD default
  let rest := heap.dropLast
  if rest.length = 0 then (lastelt, rest)
  else (rest.getD 0 default, siftup (rest.set 0 lastelt) 0)

/-- The `while len(heap) > 1` loop of `build_tree` (lines 164-172): pop the
two smallest entries and push their combination.  Fuel `heap.length`
suffices since each round shrinks the heap by one. -/
def buildTreeLoop : Nat → List OrderBy → List OrderBy
  | 0, heap => heap
  | fuel+1, heap =>
    if 1 < heap.length then
      let l := (heappop heap).1
      let h1 := (heappop heap).2
      let r := (heappop h1).1
      let h2 := (heappop h1).2
      buildTreeLoop fuel (heappush h2 ⟨HTree.node l.value r.value, l.p.add r.p⟩)
    else heap

/-- `build_tree` (lines 164-172). -/
def build_tree (token_probs : List OrderBy) : HTree :=
  let heap := heapify token_probs
  ((buildTreeLoop heap.length heap).getD 0 default).value

/-- Python dict assignment `lut[k] = v`: replace in place or append. -/
def dinsert : List (Tok × List Nat) → Tok → List Nat → List (Tok × List Nat)
  | [], k, v => [(k, v)]
  | (k2, v2) :: rest, k, v =>
    if k2 = k then (k, v) :: rest else (k2, v2) :: dinsert rest k v

/-- Python dict lookup `lut[k]`, `none` modelling the `KeyError`. -/
def lutLookup : List (Tok × List Nat) → Tok → Option (List Nat)
  | [], _ => none
  | (k2, v2) :: rest, k => if k2 = k then some v2 else lutLookup rest k

/-- `HNodeLeaf.make_lut` / `HNode.make_lut` (lines 95-98 and 113-121): a
leaf records its symbol with the accumulated bits; a node recurses left
with `bits + [0]` then right with `bits + [1]` on the same dict.  (The
source's mutable default arguments are irrelevant: `compress` calls
`make_lut()` exactly once per run, starting from a fresh dict.) -/
def make_lut : HTree → List Nat → List (Tok × List Nat) → List (Tok × List Nat)
  | .leaf v, bits, lut => dinsert lut v bits
  | .node l r, bits, lut =>
    let l_bits := bits ++ [0]
    let r_bits := bits ++ [1]
    make_lut r r_bits (make_lut l l_bits lut)

/-- The `KeyError` raised by a failed `lut[token]` lookup in `compress`. -/
inductive CErr where
  | unknownSymbol
deriving DecidableEq

/-- The `for token in tokens` loop of `compress` (lines 179-183). -/
def compressGo (lut : List (Tok × List Nat)) : List Tok → OutBS → Except CErr OutBS
  | [], s => .ok s
  | t :: ts, s =>
    match lutLookup lut t with
    | none => .error .unknownSymbol
    | some bits => compressGo lut ts (if t = EOF_SYMBOL then s.write_eof bits else s.write bits)

/-- `compress` (lines 174-183): returns the final output state, i.e. the
bytes written to `outfile` plus whatever bits remain in the pending buffer
(which is never flushed again after `write_eof`). -/
def compress (tokens : List Tok) (huffman_tree : HTree) : Except CErr OutBS :=
  compressGo (make_lut huffman_tree [] []) tokens ⟨[], []⟩

/-- The `IndexError` raised by `popleft` on the exhausted byte deque in
`InputBitstream` (huff-decompress.py). -/
inductive DErr where
  | endOfInput
deriving DecidableEq

/-- Equality of `Except` results is decidable when both components are,
so that concrete runs can be checked by evaluation. -/
instance {ε α : Type} [DecidableEq ε] [DecidableEq α] : DecidableEq (Except ε α) := fun x y =>
  match x, y with
  | .error e1, .error e2 =>
    match decEq e1 e2 with
    | isTrue h => isTrue (by rw [h])
    | isFalse h => isFalse (fun hh => h (by injection hh))
  | .error _, .ok _ => isFalse (fun hh => Except.noConfusion hh)
  | .ok _, .error _ => isFalse (fun hh => Except.noConfusion hh)
  | .ok a, .ok b =>
    match decEq a b with
    | isTrue h => isTrue (by rw [h])
    | isFalse h => isFalse (fun hh => h (by injection hh))

/-- Input state: the byte deque and the bit deque of `InputBitstream`
(huff-decompress.py lines 13-34). -/
structure InBS where
  buffer : List Nat
  bit_buffer : List Nat
deriving DecidableEq, Inhabited

/-- The 8-round `byte & 1` / `byte >>= 1` collection loop inside
`buffer_up` (lines 24-27), least significant bit first. -/
def unpackGo : Nat → Nat → List Nat
  | 0, _ => []
  | i+1, byte => byte % 2 :: unpackGo i (byte / 2)

/-- One byte unpacked as in `buffer_up` (lines 24-29): collect the low bit
eight times while shifting right, then reverse, giving the bits most
significant first. -/
def unpackByte (byte : Nat) : List Nat := (unpackGo 8 byte).reverse

/-- The `while len(self.bit_buffer) < n` loop of `buffer_up` (lines
21-29).  Each round adds 8 bits, so fuel `n` always suffices. -/
def buffer_upGo : Nat → InBS → Nat → Except DErr InBS
  | 0, s, _ => .ok s
  | fuel+1, s, n =>
    if s.bit_buffer.length < n then
      match s.buffer with
      | [] => .error .endOfInput
      | byte :: rest => buffer_upGo fuel ⟨rest, s.bit_buffer ++ unpackByte byte⟩ n
    else .ok s

/-- `InputBitstream.buffer_up`. -/
def buffer_up (s : InBS) (n : Nat) : Except DErr InBS := buffer_upGo n s n

/-- `InputBitstream.popleft` (lines 31-34): refill the bit deque if it is
empty, then pop one bit.  (The second error branch is unreachable: after a
successful `buffer_up` the bit deque holds at least 8 bits.) -/
def InBS.popleft (s : InBS) : Except DErr (Nat × InBS) :=
  match (if s.bit_buffer.length = 0 then buffer_up s 1 else .ok s) with
  | .error e => .error e
  | .ok s2 =>
    match s2.bit_buffer with
    | [] => .error .endOfInput
    | b :: rest => .ok (b, ⟨s2.buffer, rest⟩)

/-- `HNodeLeaf.decode` / `HNode.decode` (huff-decompress.py lines 55-56
and 68-73): a leaf returns its symbol reading nothing; a node reads one
bit and descends left on 0, right otherwise. -/
def decode : HTree → InBS → Except DErr (Tok × InBS)
  | .leaf v, s => .ok (v, s)
  | .node l r, s =>
    match InBS.popleft s with
    | .error e => .error e
    | .ok (bit, s2) => if bit = 0 then decode l s2 else decode r s2

/-- The `while True` loop of `decompress` (lines 85-96): decode one token;
stop (emitting nothing more) on the sentinel, else emit it and continue.
`none` means the fuel ran out; the Python loop can only diverge on a
single-leaf tree holding a non-sentinel symbol, which the pipeline never
produces. -/
def decompressFuel : Nat → HTree → InBS → Option (Except DErr (List Tok))
  | 0, _, _ => none
  | n+1, t, s =>
    match decode t s with
    | .error e => some (.error e)
    | .ok (token, s2) =>
      if token = EOF_SYMBOL then some (.ok [])
      else (decompressFuel n t s2).map (fun r => r.map (fun toks => token :: toks))

/-- Join the decoded tokens back into text, as `outfile.write(token)`
does in `decompress`. -/
def detokenize (toks : List Tok) : List Char :=
  (toks.map (fun t => match t with | .str s => s | .eof => [])).flatten

/-- Whole pipeline round trip at a given symbol model: tokenize, build the
tree from the token probabilities, compress, then decompress the produced
bytes with the same tree.  `none` when compression errored, decompression
errored, or the (always sufficient) fuel ran out. -/
def roundtrip (input : List Char) (m : SymbolModel) : Option (List Char) :=
  let tokens := tokenize input m
  let tree := build_tree (calc_probabilites tokens)
  match compress tokens tree with
  | .error _ => none
  | .ok s =>
    match decompressFuel (8 * s.out.length + 2) tree ⟨s.out, []⟩ with
    | some (.ok toks) => some (detokenize toks)
    | _ => none

/-- Multiset of symbols held by the leaves of a tree. -/
def leafMset : HTree → Multiset Tok
  | .leaf v => {v}
  | .node l r => leafMset l + leafMset r

/-- Number of leaves of a tree. -/
def leafCount : HTree → Nat
  | .leaf _ => 1
  | .node l r => leafCount l + leafCount r

/-- All symbols held by leaves of every entry of a heap. -/
def heapLeaves (h : List OrderBy) : Multiset Tok :=
  ((h : Multiset OrderBy).map fun x => leafMset x.value).sum

/-- Root-to-leaf paths of a tree, in left-to-right leaf order: 0 on a left
edge, 1 on a right edge. -/
def pathsOf : HTree → List (Tok × List Nat)
  | .leaf v => [(v, [])]
  | .node l r =>
    (pathsOf l).map (fun x => (x.1, 0 :: x.2)) ++ (pathsOf r).map (fun x => (x.1, 1 :: x.2))

/-- All bits still obtainable from an input state: the bit deque followed
by the unpacked pending bytes. -/
def availBits (s : InBS) : List Nat :=
  s.bit_buffer ++ (s.buffer.map unpackByte).flatten

/-- Modelled from the spec (§4.8): the decoder's state machine on a flat
bit list — descend from the root taking the left child on bit 0 and the
right child on bit 1, emit the leaf symbol with the unread rest, and fail
(`none`, `TruncatedStream`) when the bits run out mid-descent. -/
def decodeSpec : HTree → List Nat → Option (Tok × List Nat)
  | .leaf v, bs => some (v, bs)
  | .node _ _, [] => none
  | .node l r, b :: bs => if b = 0 then decodeSpec l bs else decodeSpec r bs

/-- Modelled from the spec (§4.3 word mode): scan left to right; a maximal
run of alphabetic characters becomes one token, any other character
becomes its own single-character token.  Fuel `s.length` always
suffices. -/
def specWordScanGo : Nat → List Char → List (List Char)
  | 0, s => s.map (fun c => [c])
  | _, [] => []
  | fuel+1, c :: cs =>
    if isAlpha c then (c :: cs.takeWhile (fun x => isAlpha x)) :: specWordScanGo fuel (cs.dropWhile (fun x => isAlpha x))
    else [c] :: specWordScanGo fuel cs

/-- Modelled from the spec (§4.3 word mode): the whole-input scan. -/
def specWordScan (s : List Char) : List (List Char) := specWordScanGo s.length s

/-- Sanity: the empty input round-trips (one leaf, empty code, empty file). -/
theorem roundtrip_nil_ok : roundtrip [] SymbolModel.char = some [] := by decide

/-- Sanity: "aaaa" round-trips (5 code bits land in the first byte). -/
theorem roundtrip_aaaa_ok :
    roundtrip ['a', 'a', 'a', 'a'] SymbolModel.char = some ['a', 'a', 'a', 'a'] := by decide

/-- The spec's word-mode scenario "go go!" does NOT round-trip: its 10 code
bits leave 2 pending after the first byte, and the mispadded `write_eof`
never flushes them, truncating the sentinel code. -/
theorem roundtrip_gogo_fails :
    roundtrip ['g', 'o', ' ', 'g', 'o', '!'] SymbolModel.word = none := by decide

/- ### List/multiset bookkeeping helpers -/

theorem multiset_set {α : Type} (d : α) (l : List α) (i : Nat) (a : α) (h : i < l.length) :
    (l.getD i d) ::ₘ (↑(l.set i a) : Multiset α) = a ::ₘ ↑l := by
  induction l generalizing i with
  | nil => simp at h
  | cons x xs ih =>
    cases i with
    | zero =>
      show x ::ₘ ↑(a :: xs) = a ::ₘ ↑(x :: xs)
      rw [← Multiset.cons_coe, ← Multiset.cons_coe, Multiset.cons_swap]
    | succ i =>
      have hi : i < xs.length := by simpa using h
      show (xs.getD i d) ::ₘ ↑(x :: xs.set i a) = a ::ₘ ↑(x :: xs)
      rw [← Multiset.cons_coe, ← Multiset.cons_coe, Multiset.cons_swap, ih i hi,
        Multiset.cons_swap]

theorem getD_set_ne {α : Type} (d : α) (l : List α) {i j : Nat} (hne : i ≠ j) (a : α) :
    (l.set i a).getD j d = l.getD j d := by
  simp [List.getD_eq_getElem?_getD, List.getElem?_set_ne hne]

theorem set_getD_self {α : Type} (d : α) (l : List α) (i : Nat) (h : i < l.length) :
    l.set i (l.getD i d) = l := by
  apply List.ext_getElem (by simp)
  intro n h1 h2
  rcases eq_or_ne i n with rfl | hne
  · simp [List.getD_eq_getElem?_getD, List.getElem?_eq_getElem h2]
  · simp [List.getElem_set_ne hne]

theorem multiset_set_exchange {α : Type} (d : α) (l : List α) {i j : Nat} (b : α)
    (hi : i < l.length) (hj : j < l.length) (hne : i ≠ j) :
    (↑((l.set i (l.getD j d)).set j b) : Multiset α) = ↑(l.set i b) := by
  have h1 : ((l.set i (l.getD j d)).getD j d) ::ₘ (↑((l.set i (l.getD j d)).set j b) : Multiset α)
      = b ::ₘ ↑(l.set i (l.getD j d)) := multiset_set d _ j b (by simpa using hj)
  rw [getD_set_ne d l hne] at h1
  have h2 : (l.getD i d) ::ₘ (↑(l.set i (l.getD j d)) : Multiset α) = (l.getD j d) ::ₘ ↑l :=
    multiset_set d l i _ hi
  have h3 : (l.getD i d) ::ₘ (↑(l.set i b) : Multiset α) = b ::ₘ ↑l :=
    multiset_set d l i b hi
  have key : (l.getD i d) ::ₘ (l.getD j d) ::ₘ (↑((l.set i (l.getD j d)).set j b) : Multiset α)
      = (l.getD i d) ::ₘ (l.getD j d) ::ₘ ↑(l.set i b) :=
    calc (l.getD i d) ::ₘ (l.getD j d) ::ₘ (↑((l.set i (l.getD j d)).set j b) : Multiset α)
        = (l.getD i d) ::ₘ (b ::ₘ ↑(l.set i (l.getD j d))) := by rw [h1]
      _ = b ::ₘ ((l.getD i d) ::ₘ ↑(l.set i (l.getD j d))) := Multiset.cons_swap _ _ _
      _ = b ::ₘ ((l.getD j d) ::ₘ ↑l) := by rw [h2]
      _ = (l.getD j d) ::ₘ (b ::ₘ ↑l) := Multiset.cons_swap _ _ _
      _ = (l.getD j d) ::ₘ ((l.getD i d) ::ₘ ↑(l.set i b)) := by rw [h3]
      _ = (l.getD i d) ::ₘ (l.getD j d) ::ₘ ↑(l.set i b) := Multiset.cons_swap _ _ _
  exact (Multiset.cons_inj_right _).mp ((Multiset.cons_inj_right _).mp key)

/- ### The heap operations preserve the multiset of entries -/

theorem siftdownAux_perm (fuel : Nat) :
    ∀ (heap : List OrderBy) (startpos pos : Nat) (item : OrderBy), pos < heap.length →
    (↑(siftdownAux fuel heap startpos pos item) : Multiset OrderBy) = ↑(heap.set pos item) := by
  induction fuel with
  | zero => intro heap startpos pos item _; rfl
  | succ fuel ih =>
    intro heap startpos pos item hp
    show (↑(if startpos < pos then _ else heap.set pos item) : Multiset OrderBy) = _
    split
    · next hsp =>
      dsimp only
      split
      · next hlt =>
        have hpos1 : 1 ≤ pos := Nat.one_le_iff_ne_zero.mpr (by omega)
        have hppos : (pos - 1) / 2 < pos := by omega
        have hpplen : (pos - 1) / 2 < (heap.set pos (heap.getD ((pos - 1) / 2) default)).length := by
          simp; omega
        rw [ih _ startpos _ item hpplen]
        exact multiset_set_exchange default heap item hp (by omega) (by omega)
      · rfl
    · rfl

theorem siftdownAux_length (fuel : Nat) :
    ∀ (heap : List OrderBy) (startpos pos : Nat) (item : OrderBy),
    (siftdownAux fuel heap startpos pos item).length = heap.length := by
  induction fuel with
  | zero => intro heap startpos pos item; simp [siftdownAux]
  | succ fuel ih =>
    intro heap startpos pos item
    show (if startpos < pos then _ else heap.set pos item).length = _
    split
    · dsimp only
      split
      · rw [ih]; simp
      · simp
    · simp

theorem siftupLoop_spec (fuel : Nat) :
    ∀ (heap : List OrderBy) (endpos pos : Nat), pos < heap.length → endpos ≤ heap.length →
    (siftupLoop fuel heap endpos pos).1.length = heap.length ∧
    (siftupLoop fuel heap endpos pos).2 < heap.length ∧
    ∀ x, (↑((siftupLoop fuel heap endpos pos).1.set (siftupLoop fuel heap endpos pos).2 x) : Multiset OrderBy)
      = ↑(heap.set pos x) := by
  induction fuel with
  | zero => intro heap endpos pos hp _; exact ⟨rfl, hp, fun x => rfl⟩
  | succ fuel ih =>
    intro heap endpos pos hp he
    simp only [siftupLoop]
    rcases Nat.lt_or_ge (2*pos+1) endpos with hc | hc
    · rw [if_pos hc]
      set childpos2 := if 2*pos+1+1 < endpos ∧ OrderBy.lt (heap.getD (2*pos+1) default) (heap.getD (2*pos+1+1) default) = false
        then 2*pos+1+1 else 2*pos+1 with hc2
      have hc2lt : childpos2 < endpos := by
        rw [hc2]; split
        · next hcond => exact hcond.1
        · exact hc
      have hc2len : childpos2 < heap.length := lt_of_lt_of_le hc2lt he
      have hgt : 2*pos+1 ≤ childpos2 := by
        rw [hc2]; split
        · omega
        · omega
      have hne : pos ≠ childpos2 := by omega
      have hlen2 : (heap.set pos (heap.getD childpos2 default)).length = heap.length := by simp
      obtain ⟨ih1, ih2, ih3⟩ := ih (heap.set pos (heap.getD childpos2 default)) endpos childpos2
        (by simpa using hc2len) (by simpa using he)
      refine ⟨by rw [ih1, hlen2], by rw [hlen2] at ih2; exact ih2, fun x => ?_⟩
      rw [ih3 x]
      exact multiset_set_exchange default heap x hp hc2len hne
    · rw [if_neg (by omega)]
      exact ⟨rfl, hp, fun x => rfl⟩

theorem siftup_perm (heap : List OrderBy) (pos : Nat) (hp : pos < heap.length) :
    (↑(siftup heap pos) : Multiset OrderBy) = ↑heap ∧ (siftup heap pos).length = heap.length := by
  obtain ⟨h1, h2, h3⟩ := siftupLoop_spec heap.length heap heap.length pos hp le_rfl
  have hset : ((siftupLoop heap.length heap heap.length pos).1.set
      (siftupLoop heap.length heap heap.length pos).2 (heap.getD pos default)).getD
      (siftupLoop heap.length heap heap.length pos).2 default = heap.getD pos default := by
    simp [List.getD_eq_getElem?_getD, List.getElem?_set_self, h1, h2]
  constructor
  · show (↑(siftdown _ pos _) : Multiset OrderBy) = ↑heap
    unfold siftdown
    rw [siftdownAux_perm _ _ _ _ _ (by simpa [h1] using h2)]
    rw [List.set_set, hset]
    rw [h3]
    rw [congrArg (Multiset.ofList) (set_getD_self default heap pos hp)]
  · show (siftdown _ pos _).length = heap.length
    unfold siftdown
    rw [siftdownAux_length]
    simp [h1]

theorem heapifyAux_perm : ∀ (k : Nat) (heap : List OrderBy), k ≤ heap.length →
    (↑(heapifyAux heap k) : Multiset OrderBy) = ↑heap ∧ (heapifyAux heap k).length = heap.length := by
  intro k
  induction k with
  | zero => intro heap _; exact ⟨rfl, rfl⟩
  | succ k ih =>
    intro heap hk
    have hklt : k < heap.length := hk
    obtain ⟨s1, s2⟩ := siftup_perm heap k hklt
    obtain ⟨i1, i2⟩ := ih (siftup heap k) (by omega)
    exact ⟨by rw [show heapifyAux heap (k+1) = heapifyAux (siftup heap k) k from rfl, i1, s1],
      by rw [show heapifyAux heap (k+1) = heapifyAux (siftup heap k) k from rfl, i2, s2]⟩

theorem heapify_perm (heap : List OrderBy) :
    (↑(heapify heap) : Multiset OrderBy) = ↑heap ∧ (heapify heap).length = heap.length :=
  heapifyAux_perm (heap.length / 2) heap (Nat.div_le_self _ _)

theorem heappush_perm (heap : List OrderBy) (item : OrderBy) :
    (↑(heappush heap item) : Multiset OrderBy) = item ::ₘ ↑heap ∧
    (heappush heap item).length = heap.length + 1 := by
  have hlen : (heap ++ [item]).length = heap.length + 1 := by simp
  have hpos : (heap ++ [item]).length - 1 < (heap ++ [item]).length := by simp
  constructor
  · show (↑(siftdown (heap ++ [item]) 0 ((heap ++ [item]).length - 1)) : Multiset OrderBy) = _
    unfold siftdown
    rw [siftdownAux_perm _ _ _ _ _ hpos, congrArg (Multiset.ofList)
      (set_getD_self default (heap ++ [item]) _ hpos)]
    show (↑(heap ++ [item]) : Multiset OrderBy) = item ::ₘ ↑heap
    rw [← Multiset.coe_add, Multiset.coe_singleton, add_comm, Multiset.singleton_add]
  · show (siftdown (heap ++ [item]) 0 ((heap ++ [item]).length - 1)).length = _
    unfold siftdown
    rw [siftdownAux_length, hlen]

theorem heappop_spec (heap : List OrderBy) (h : heap ≠ []) :
    ((heappop heap).1 ::ₘ ↑(heappop heap).2 : Multiset OrderBy) = ↑heap ∧
    (heappop heap).2.length = heap.length - 1 := by
  obtain rfl | ⟨ys, y, rfl⟩ := heap.eq_nil_or_concat
  · exact absurd rfl h
  · simp only [List.concat_eq_append] at h ⊢
    have hdl : (ys ++ [y]).dropLast = ys := List.dropLast_concat
    have hlast : (ys ++ [y]).getLastD default = y := by
      simp [List.getLastD_eq_getLast?]
    by_cases hre : ys.length = 0
    · obtain rfl : ys = [] := List.length_eq_zero.mp hre
      simp [heappop]
    · have hre1 : 0 < ys.length := Nat.pos_of_ne_zero hre
      have hrewrite : heappop (ys ++ [y]) = (ys.getD 0 default, siftup (ys.set 0 y) 0) := by
        rw [heappop]
        simp only [hdl, hlast]
        rw [if_neg hre]
      obtain ⟨s1, s2⟩ := siftup_perm (ys.set 0 y) 0 (by simpa using hre1)
      rw [hrewrite]
      constructor
      · show (ys.getD 0 default) ::ₘ _ = _
        rw [s1, multiset_set default ys 0 _ hre1]
        show y ::ₘ (↑ys : Multiset OrderBy) = ↑(ys ++ [y])
        rw [← Multiset.coe_add, Multiset.coe_singleton, add_comm, Multiset.singleton_add]
      · show (siftup _ 0).length = _
        rw [s2]
        simp

theorem buildTreeLoop_spec : ∀ (fuel : Nat) (heap : List OrderBy), 1 ≤ heap.length →
    heap.length ≤ fuel + 1 →
    (buildTreeLoop fuel heap).length = 1 ∧ heapLeaves (buildTreeLoop fuel heap) = heapLeaves heap := by
  intro fuel
  induction fuel with
  | zero =>
    intro heap h1 h2
    refine ⟨?_, rfl⟩
    simp only [buildTreeLoop]
    omega
  | succ fuel ih =>
    intro heap h1 h2
    by_cases hgt : 1 < heap.length
    · have hne : heap ≠ [] := by
        intro hh
        rw [hh] at h1
        simp at h1
      obtain ⟨p1, p1len⟩ := heappop_spec heap hne
      have hne1 : (heappop heap).2 ≠ [] := by
        intro hh
        rw [hh] at p1len
        simp at p1len
        omega
      obtain ⟨p2, p2len⟩ := heappop_spec (heappop heap).2 hne1
      obtain ⟨pu, pulen⟩ := heappush_perm (heappop (heappop heap).2).2
        ⟨HTree.node (heappop heap).1.value (heappop (heappop heap).2).1.value,
         (heappop heap).1.p.add (heappop (heappop heap).2).1.p⟩
      have recur : buildTreeLoop (fuel+1) heap = buildTreeLoop fuel
          (heappush (heappop (heappop heap).2).2
            ⟨HTree.node (heappop heap).1.value (heappop (heappop heap).2).1.value,
             (heappop heap).1.p.add (heappop (heappop heap).2).1.p⟩) := by
        simp only [buildTreeLoop]
        rw [if_pos hgt]
      have e1 : leafMset (heappop heap).1.value + heapLeaves (heappop heap).2 = heapLeaves heap := by
        have := congrArg (fun s : Multiset OrderBy => (s.map fun e => leafMset e.value).sum) p1
        simpa [heapLeaves] using this
      have e2 : leafMset (heappop (heappop heap).2).1.value + heapLeaves (heappop (heappop heap).2).2
          = heapLeaves (heappop heap).2 := by
        have := congrArg (fun s : Multiset OrderBy => (s.map fun e => leafMset e.value).sum) p2
        simpa [heapLeaves] using this
      have epush : heapLeaves (heappush (heappop (heappop heap).2).2
          ⟨HTree.node (heappop heap).1.value (heappop (heappop heap).2).1.value,
           (heappop heap).1.p.add (heappop (heappop heap).2).1.p⟩)
          = (leafMset (heappop heap).1.value + leafMset (heappop (heappop heap).2).1.value)
            + heapLeaves (heappop (heappop heap).2).2 := by
        have := congrArg (fun s : Multiset OrderBy => (s.map fun e => leafMset e.value).sum) pu
        simpa [heapLeaves, leafMset] using this
      obtain ⟨r1, r2⟩ := ih (heappush (heappop (heappop heap).2).2
        ⟨HTree.node (heappop heap).1.value (heappop (heappop heap).2).1.value,
         (heappop heap).1.p.add (heappop (heappop heap).2).1.p⟩)
        (by omega) (by omega)
      refine ⟨by rw [recur, r1], ?_⟩
      rw [recur, r2, epush, add_assoc, e2, e1]
    · have recur : buildTreeLoop (fuel+1) heap = heap := by
        simp only [buildTreeLoop]
        rw [if_neg hgt]
      exact ⟨by rw [recur]; omega, by rw [recur]⟩

theorem heapLeaves_congr {h1 h2 : List OrderBy} (h : (↑h1 : Multiset OrderBy) = ↑h2) :
    heapLeaves h1 = heapLeaves h2 := by
  unfold heapLeaves
  rw [h]

theorem build_tree_heapLeaves (probs : List OrderBy) (h : probs ≠ []) :
    leafMset (build_tree probs) = heapLeaves probs := by
  obtain ⟨hp1, hp2⟩ := heapify_perm probs
  have hlen : 1 ≤ (heapify probs).length := by
    rw [hp2]
    exact List.length_pos.mpr h
  obtain ⟨b1, b2⟩ := buildTreeLoop_spec (heapify probs).length (heapify probs) hlen (by omega)
  obtain ⟨x, hx⟩ := List.length_eq_one.mp b1
  have hval : build_tree probs = x.value := by
    show ((buildTreeLoop (heapify probs).length (heapify probs)).getD 0 default).value = x.value
    rw [hx]
    rfl
  have hsum : heapLeaves (buildTreeLoop (heapify probs).length (heapify probs)) = heapLeaves probs := by
    rw [b2]
    exact heapLeaves_congr hp1
  rw [hx] at hsum
  rw [hval, ← hsum]
  simp [heapLeaves]

theorem heapLeaves_calc_probs (l : List (Tok × Nat)) (n : Nat) :
    heapLeaves (l.map (fun x => ⟨HTree.leaf x.1, ⟨x.2, n⟩⟩)) = ↑(l.map Prod.fst) := by
  induction l with
  | nil => rfl
  | cons x xs ih =>
    unfold heapLeaves at ih ⊢
    rw [List.map_cons, List.map_cons, ← Multiset.cons_coe, ← Multiset.cons_coe,
      Multiset.map_cons, Multiset.sum_cons, ih]
    show leafMset (HTree.leaf x.1) + _ = _
    rw [show leafMset (HTree.leaf x.1) = {x.1} from rfl, Multiset.singleton_add]

theorem bumpCount_keys (l : List (Tok × Nat)) (t : Tok) :
    (bumpCount l t).map Prod.fst =
      if t ∈ l.map Prod.fst then l.map Prod.fst else l.map Prod.fst ++ [t] := by
  induction l with
  | nil => simp [bumpCount]
  | cons x xs ih =>
    obtain ⟨k, c⟩ := x
    by_cases hk : k = t
    · subst hk
      simp [bumpCount]
    · have hk2 : ¬ t = k := fun hh => hk hh.symm
      simp only [bumpCount, if_neg hk, List.map_cons]
      rw [ih]
      by_cases hm : t ∈ xs.map Prod.fst
      · rw [if_pos hm, if_pos (by simp [hm])]
      · rw [if_neg hm, if_neg (by simp [hk2, hm])]
        simp

theorem countTokens_keys_nodup_aux : ∀ (toks : List Tok) (acc : List (Tok × Nat)),
    (acc.map Prod.fst).Nodup → ((toks.foldl bumpCount acc).map Prod.fst).Nodup := by
  intro toks
  induction toks with
  | nil => intro acc h; exact h
  | cons t ts ih =>
    intro acc h
    rw [List.foldl_cons]
    apply ih
    rw [bumpCount_keys]
    split
    · exact h
    · next hm => simp [List.Nodup.append, List.nodup_append, h, hm]

theorem countTokens_keys_nodup (toks : List Tok) : ((countTokens toks).map Prod.fst).Nodup :=
  countTokens_keys_nodup_aux toks [] (by simp)

theorem mem_countTokens_keys_aux : ∀ (toks : List Tok) (acc : List (Tok × Nat)) (a : Tok),
    a ∈ (toks.foldl bumpCount acc).map Prod.fst ↔ a ∈ acc.map Prod.fst ∨ a ∈ toks := by
  intro toks
  induction toks with
  | nil => intro acc a; simp
  | cons t ts ih =>
    intro acc a
    rw [List.foldl_cons, ih, bumpCount_keys]
    by_cases hm : t ∈ acc.map Prod.fst
    · rw [if_pos hm]
      have hsub : a = t → a ∈ acc.map Prod.fst := fun hh => hh ▸ hm
      simp only [List.mem_cons]
      tauto
    · rw [if_neg hm]
      simp only [List.mem_append, List.mem_singleton, List.mem_cons]
      tauto

theorem mem_countTokens_keys (toks : List Tok) (a : Tok) :
    a ∈ (countTokens toks).map Prod.fst ↔ a ∈ toks := by
  simpa using mem_countTokens_keys_aux toks [] a

theorem leafMset_card (t : HTree) : (leafMset t).card = leafCount t := by
  induction t with
  | leaf v => rfl
  | node l r ihl ihr => simp [leafMset, leafCount, ihl, ihr]

theorem countTokens_ne_nil (tokens : List Tok) (h : tokens ≠ []) : countTokens tokens ≠ [] := by
  obtain ⟨t, ts, rfl⟩ := List.exists_cons_of_ne_nil h
  intro hc
  have := (mem_countTokens_keys (t :: ts) t).mpr (by simp)
  rw [hc] at this
  simp at this

theorem build_tree_singleton (x : OrderBy) : build_tree [x] = x.value := by
  have h1 : heapify [x] = [x] := by
    show heapifyAux [x] ([x].length / 2) = [x]
    norm_num [heapifyAux]
  have h2 : buildTreeLoop 1 [x] = [x] := by
    simp only [buildTreeLoop]
    rw [if_neg (by norm_num)]
  show ((buildTreeLoop (heapify [x]).length (heapify [x])).getD 0 default).value = x.value
  rw [h1]
  show ((buildTreeLoop [x].length [x]).getD 0 default).value = x.value
  norm_num [h2]

/-- Claim C7: for every non-empty token sequence, the tree returned by
`build_tree` from the sequence's probabilities has exactly one leaf per
distinct symbol of the sequence (the multiset of leaf symbols equals the
distinct-symbol list of `calc_probabilites`, which is duplicate-free and
holds exactly the symbols occurring in the sequence), so its leaf count
equals the number of distinct symbols; with a single distinct symbol the
returned root is that single leaf itself.  (Internal nodes have exactly
two children by construction of `HTree`, mirroring `HNode`.) -/
theorem build_tree_leaf_invariant (tokens : List Tok) (h : tokens ≠ []) :
    leafMset (build_tree (calc_probabilites tokens)) = ↑((countTokens tokens).map Prod.fst) ∧
    leafCount (build_tree (calc_probabilites tokens)) = (countTokens tokens).length ∧
    ((countTokens tokens).map Prod.fst).Nodup ∧
    (∀ t : Tok, t ∈ (countTokens tokens).map Prod.fst ↔ t ∈ tokens) ∧
    (∀ t c, countTokens tokens = [(t, c)] →
      build_tree (calc_probabilites tokens) = HTree.leaf t) := by
  have hnn : countTokens tokens ≠ [] := countTokens_ne_nil tokens h
  have hcalc : calc_probabilites tokens ≠ [] := by
    unfold calc_probabilites
    simpa using hnn
  have hmain : leafMset (build_tree (calc_probabilites tokens))
      = ↑((countTokens tokens).map Prod.fst) := by
    rw [build_tree_heapLeaves _ hcalc]
    exact heapLeaves_calc_probs (countTokens tokens) tokens.length
  refine ⟨hmain, ?_, countTokens_keys_nodup tokens, mem_countTokens_keys tokens, ?_⟩
  · have := congrArg Multiset.card hmain
    rw [leafMset_card] at this
    simpa using this
  · intro t c hct
    have : calc_probabilites tokens
        = [⟨HTree.leaf t, ⟨c, tokens.length⟩⟩] := by
      unfold calc_probabilites
      rw [hct]
      rfl
    rw [this]
    exact build_tree_singleton _

theorem build_tree_leaf_invariant_witness :
    leafCount (build_tree (calc_probabilites [Tok.str ['a'], Tok.eof])) = 2 ∧
    build_tree (calc_probabilites [Tok.eof]) = HTree.leaf Tok.eof := by
  constructor
  · have h := (build_tree_leaf_invariant [Tok.str ['a'], Tok.eof] (by decide)).2.1
    rw [h]
    decide
  · exact (build_tree_leaf_invariant [Tok.eof] (by decide)).2.2.2.2 Tok.eof 1 (by decide)

/- ### Code-table lookup lemmas -/

theorem lutLookup_dinsert_self (lut : List (Tok × List Nat)) (k : Tok) (v : List Nat) :
    lutLookup (dinsert lut k v) k = some v := by
  induction lut with
  | nil => simp [dinsert, lutLookup]
  | cons x xs ih =>
    obtain ⟨k2, v2⟩ := x
    by_cases hk : k2 = k
    · subst hk
      simp [dinsert, lutLookup]
    · simp [dinsert, lutLookup, hk, ih]

theorem lutLookup_dinsert_ne (lut : List (Tok × List Nat)) (k2 : Tok) (v : List Nat)
    (k : Tok) (hne : k2 ≠ k) : lutLookup (dinsert lut k2 v) k = lutLookup lut k := by
  induction lut with
  | nil => simp [dinsert, lutLookup, hne]
  | cons x xs ih =>
    obtain ⟨k3, v3⟩ := x
    by_cases hk : k3 = k2
    · subst hk
      simp [dinsert, lutLookup, hne]
    · simp [dinsert, lutLookup, hk, ih]

theorem lutLookup_dinsert_isSome (lut : List (Tok × List Nat)) (k2 : Tok) (v : List Nat)
    (k : Tok) (h : (lutLookup lut k).isSome) : (lutLookup (dinsert lut k2 v) k).isSome := by
  by_cases hk : k2 = k
  · subst hk
    rw [lutLookup_dinsert_self]
    rfl
  · rw [lutLookup_dinsert_ne lut k2 v k hk]
    exact h

theorem make_lut_isSome_mono (t : HTree) : ∀ (bits : List Nat) (lut : List (Tok × List Nat))
    (k : Tok), (lutLookup lut k).isSome → (lutLookup (make_lut t bits lut) k).isSome := by
  induction t with
  | leaf v => intro bits lut k h; exact lutLookup_dinsert_isSome lut v bits k h
  | node l r ihl ihr =>
    intro bits lut k h
    exact ihr _ _ k (ihl _ _ k h)

theorem make_lut_isSome_of_leaf (t : HTree) : ∀ (bits : List Nat) (lut : List (Tok × List Nat))
    (k : Tok), k ∈ leafMset t → (lutLookup (make_lut t bits lut) k).isSome := by
  induction t with
  | leaf v =>
    intro bits lut k h
    obtain rfl : k = v := by simpa [leafMset] using h
    show (lutLookup (dinsert lut k bits) k).isSome
    rw [lutLookup_dinsert_self]
    rfl
  | node l r ihl ihr =>
    intro bits lut k h
    rcases (by simpa [leafMset] using h : k ∈ leafMset l ∨ k ∈ leafMset r) with hl | hr
    · exact make_lut_isSome_mono r _ _ k (ihl _ _ k hl)
    · exact ihr _ _ k hr

theorem compressGo_ok (lut : List (Tok × List Nat)) :
    ∀ (toks : List Tok) (s : OutBS), (∀ t ∈ toks, (lutLookup lut t).isSome) →
    ∃ s2, compressGo lut toks s = .ok s2 := by
  intro toks
  induction toks with
  | nil => intro s _; exact ⟨s, rfl⟩
  | cons t ts ih =>
    intro s h
    have ht : (lutLookup lut t).isSome := h t (by simp)
    obtain ⟨bits, hbits⟩ := Option.isSome_iff_exists.mp ht
    show ∃ s2, (match lutLookup lut t with
      | none => Except.error CErr.unknownSymbol
      | some bits => compressGo lut ts (if t = EOF_SYMBOL then s.write_eof bits else s.write bits)) = .ok s2
    rw [hbits]
    exact ih _ (fun a ha => h a (by simp [ha]))

/-- Claim C9: when the code table comes (via `make_lut`) from the tree built
from the very token sequence being encoded, the per-token lookup succeeds
for every token of the sequence, so the `UnknownSymbol` (`KeyError`)
failure branch of `compress` is unreachable: `compress` returns `ok`. -/
theorem compress_no_unknown_symbol (tokens : List Tok) (h : tokens ≠ []) :
    (∀ t ∈ tokens,
      (lutLookup (make_lut (build_tree (calc_probabilites tokens)) [] []) t).isSome) ∧
    ∃ s, compress tokens (build_tree (calc_probabilites tokens)) = .ok s := by
  have hcalc : calc_probabilites tokens ≠ [] := by
    unfold calc_probabilites
    simpa using countTokens_ne_nil tokens h
  have hleaf : leafMset (build_tree (calc_probabilites tokens))
      = ↑((countTokens tokens).map Prod.fst) := by
    rw [build_tree_heapLeaves _ hcalc]
    exact heapLeaves_calc_probs (countTokens tokens) tokens.length
  have hlook : ∀ t ∈ tokens,
      (lutLookup (make_lut (build_tree (calc_probabilites tokens)) [] []) t).isSome := by
    intro t ht
    apply make_lut_isSome_of_leaf
    rw [hleaf]
    rw [Multiset.mem_coe, mem_countTokens_keys]
    exact ht
  exact ⟨hlook, compressGo_ok _ tokens _ hlook⟩

theorem compress_no_unknown_symbol_witness :
    (lutLookup (make_lut (build_tree (calc_probabilites [Tok.str ['a'], Tok.eof])) [] [])
      (Tok.str ['a'])).isSome ∧
    ∃ s, compress [Tok.str ['a'], Tok.eof]
      (build_tree (calc_probabilites [Tok.str ['a'], Tok.eof])) = .ok s := by
  obtain ⟨h1, h2⟩ := compress_no_unknown_symbol [Tok.str ['a'], Tok.eof] (by decide)
  exact ⟨h1 (Tok.str ['a']) (by decide), h2⟩

/- ### Paths, prefix freeness and the code table -/

theorem make_lut_not_mem (t : HTree) : ∀ (bits : List Nat) (lut : List (Tok × List Nat))
    (k : Tok), k ∉ leafMset t → lutLookup (make_lut t bits lut) k = lutLookup lut k := by
  induction t with
  | leaf v =>
    intro bits lut k h
    have hne : v ≠ k := by
      intro hh
      exact h (by simp [leafMset, hh])
    exact lutLookup_dinsert_ne lut v bits k hne
  | node l r ihl ihr =>
    intro bits lut k h
    have hkl : k ∉ leafMset l := fun hh => h (by simp [leafMset, hh])
    have hkr : k ∉ leafMset r := fun hh => h (by simp [leafMset, hh])
    show lutLookup (make_lut r _ (make_lut l _ lut)) k = _
    rw [ihr _ _ k hkr, ihl _ _ k hkl]

theorem mem_pathsOf_fst (t : HTree) (v : Tok) :
    v ∈ (pathsOf t).map Prod.fst ↔ v ∈ leafMset t := by
  induction t with
  | leaf w => simp [pathsOf, leafMset]
  | node l r ihl ihr =>
    simp only [pathsOf, List.map_append, List.mem_append, List.map_map, leafMset,
      Multiset.mem_add, ← ihl, ← ihr]
    constructor
    · rintro (h | h)
      · left
        simpa using h
      · right
        simpa using h
    · rintro (h | h)
      · left
        simpa using h
      · right
        simpa using h

theorem make_lut_lookup_path (t : HTree) : ∀ (bits : List Nat) (lut : List (Tok × List Nat))
    (v : Tok) (p : List Nat), ((pathsOf t).map Prod.fst).Nodup → (v, p) ∈ pathsOf t →
    lutLookup (make_lut t bits lut) v = some (bits ++ p) := by
  induction t with
  | leaf w =>
    intro bits lut v p _ hmem
    obtain ⟨rfl, rfl⟩ : v = w ∧ p = [] := by simpa [pathsOf] using hmem
    show lutLookup (dinsert lut v bits) v = _
    rw [lutLookup_dinsert_self]
    simp
  | node l r ihl ihr =>
    intro bits lut v p hnd hmem
    have hnd2 : ((pathsOf l).map Prod.fst ++ (pathsOf r).map Prod.fst).Nodup := by
      simpa [pathsOf, List.map_map, Function.comp] using hnd
    rw [List.nodup_append] at hnd2
    obtain ⟨hndl, hndr, hdisj⟩ := hnd2
    rcases (by simpa [pathsOf] using hmem :
        (∃ x, x ∈ pathsOf l ∧ x.1 = v ∧ 0 :: x.2 = p) ∨
        (∃ x, x ∈ pathsOf r ∧ x.1 = v ∧ 1 :: x.2 = p)) with ⟨⟨v2, q⟩, hq, hv, hp⟩ | ⟨⟨v2, q⟩, hq, hv, hp⟩
    · subst hv
      subst hp
      have hvr : v2 ∉ leafMset r := by
        rw [← mem_pathsOf_fst]
        intro hr
        exact hdisj (by exact List.mem_map_of_mem Prod.fst hq) hr
      show lutLookup (make_lut r _ (make_lut l _ lut)) v2 = _
      rw [make_lut_not_mem r _ _ _ hvr, ihl _ _ _ _ hndl hq]
      simp
    · subst hv
      subst hp
      show lutLookup (make_lut r _ (make_lut l _ lut)) v2 = _
      rw [ihr _ _ _ _ hndr hq]
      simp

theorem make_lut_lookup_mem_paths (t : HTree) (v : Tok) (p : List Nat)
    (hnd : ((pathsOf t).map Prod.fst).Nodup)
    (h : lutLookup (make_lut t [] []) v = some p) : (v, p) ∈ pathsOf t := by
  by_cases hv : v ∈ leafMset t
  · obtain ⟨⟨v2, q⟩, hq, hfst⟩ := List.mem_map.mp ((mem_pathsOf_fst t v).mpr hv)
    obtain rfl : v2 = v := hfst
    have := make_lut_lookup_path t [] [] v2 q hnd hq
    rw [h] at this
    obtain rfl : p = q := by simpa using this
    exact hq
  · rw [make_lut_not_mem t [] [] v hv] at h
    simp [lutLookup] at h

theorem pathsOf_snd_nodup (t : HTree) : ((pathsOf t).map Prod.snd).Nodup := by
  induction t with
  | leaf w => simp [pathsOf]
  | node l r ihl ihr =>
    have hmapl : (pathsOf l).map (Prod.snd ∘ fun x => (x.1, 0 :: x.2))
        = ((pathsOf l).map Prod.snd).map (fun q => 0 :: q) := by
      simp [List.map_map, Function.comp]
    have hmapr : (pathsOf r).map (Prod.snd ∘ fun x => (x.1, 1 :: x.2))
        = ((pathsOf r).map Prod.snd).map (fun q => 1 :: q) := by
      simp [List.map_map, Function.comp]
    simp only [pathsOf, List.map_append, List.map_map]
    rw [List.nodup_append, hmapl, hmapr]
    refine ⟨ihl.map (fun a b h => by simpa using h), ihr.map (fun a b h => by simpa using h), ?_⟩
    intro q hql hqr
    obtain ⟨q1, _, rfl⟩ := List.mem_map.mp hql
    obtain ⟨q2, _, hq2⟩ := List.mem_map.mp hqr
    simp at hq2

theorem pathsOf_strict_prefix_eq (t : HTree) : ∀ (v1 v2 : Tok) (p1 p2 : List Nat),
    (v1, p1) ∈ pathsOf t → (v2, p2) ∈ pathsOf t → (∃ rest, p2 = p1 ++ rest) → p1 = p2 := by
  induction t with
  | leaf w =>
    intro v1 v2 p1 p2 h1 h2 _
    obtain ⟨-, rfl⟩ : v1 = w ∧ p1 = [] := by simpa [pathsOf] using h1
    obtain ⟨-, rfl⟩ : v2 = w ∧ p2 = [] := by simpa [pathsOf] using h2
    rfl
  | node l r ihl ihr =>
    intro v1 v2 p1 p2 h1 h2 hpre
    obtain ⟨rest, rfl⟩ := hpre
    rcases (by simpa [pathsOf] using h1 :
        (∃ x, x ∈ pathsOf l ∧ x.1 = v1 ∧ 0 :: x.2 = p1) ∨
        (∃ x, x ∈ pathsOf r ∧ x.1 = v1 ∧ 1 :: x.2 = p1)) with
      ⟨⟨w1, q1⟩, hq1, -, hp1⟩ | ⟨⟨w1, q1⟩, hq1, -, hp1⟩ <;>
      rcases (by simpa [pathsOf] using h2 :
          (∃ x, x ∈ pathsOf l ∧ x.1 = v2 ∧ 0 :: x.2 = p1 ++ rest) ∨
          (∃ x, x ∈ pathsOf r ∧ x.1 = v2 ∧ 1 :: x.2 = p1 ++ rest)) with
        ⟨⟨w2, q2⟩, hq2, -, hp2⟩ | ⟨⟨w2, q2⟩, hq2, -, hp2⟩ <;>
      subst hp1 <;> simp only [List.cons_append] at hp2
    · injection hp2 with h0 hq
      have heq := ihl w1 w2 q1 q2 hq1 hq2 ⟨rest, hq⟩
      rw [List.cons_append, ← hq, heq]
    · injection hp2 with h0 hq
      exact absurd h0 (by decide)
    · injection hp2 with h0 hq
      exact absurd h0 (by decide)
    · injection hp2 with h0 hq
      have heq := ihr w1 w2 q1 q2 hq1 hq2 ⟨rest, hq⟩
      rw [List.cons_append, ← hq, heq]

/-- Claim C8: for every prefix tree whose leaves hold pairwise distinct
symbols (the PrefixTree invariant of the spec's data model), the code
table produced by `make_lut` assigns to every symbol held by a leaf
exactly one entry, namely the bit sequence of its root-to-leaf path
(0 left, 1 right), and for distinct symbols neither code is a prefix of
the other (in a one-leaf tree the prefix clause is vacuous: there is no
pair of distinct symbols). -/
theorem make_lut_correct_and_prefix_free (t : HTree)
    (hnd : ((pathsOf t).map Prod.fst).Nodup) :
    (∀ v p, (v, p) ∈ pathsOf t → lutLookup (make_lut t [] []) v = some p) ∧
    (∀ v1 v2 p1 p2, v1 ≠ v2 →
      lutLookup (make_lut t [] []) v1 = some p1 →
      lutLookup (make_lut t [] []) v2 = some p2 →
      ¬ ∃ rest, p2 = p1 ++ rest) := by
  constructor
  · intro v p hm
    have := make_lut_lookup_path t [] [] v p hnd hm
    simpa using this
  · intro v1 v2 p1 p2 hne h1 h2 hpre
    have hm1 := make_lut_lookup_mem_paths t v1 p1 hnd h1
    have hm2 := make_lut_lookup_mem_paths t v2 p2 hnd h2
    have hp12 : p1 = p2 := pathsOf_strict_prefix_eq t v1 v2 p1 p2 hm1 hm2 hpre
    subst hp12
    have heq : (v1, p1) = (v2, p1) :=
      List.inj_on_of_nodup_map (pathsOf_snd_nodup t) hm1 hm2 rfl
    exact hne (by simpa using heq)

theorem make_lut_correct_and_prefix_free_witness :
    lutLookup (make_lut (HTree.node (HTree.leaf (Tok.str ['a']))
      (HTree.node (HTree.leaf (Tok.str ['b'])) (HTree.leaf Tok.eof))) [] []) (Tok.str ['a'])
      = some [0] ∧
    ¬ ∃ rest, [1, 0] = [0] ++ rest := by
  have h := make_lut_correct_and_prefix_free (HTree.node (HTree.leaf (Tok.str ['a']))
    (HTree.node (HTree.leaf (Tok.str ['b'])) (HTree.leaf Tok.eof))) (by decide)
  refine ⟨h.1 (Tok.str ['a']) [0] (by decide), ?_⟩
  exact h.2 (Tok.str ['a']) (Tok.str ['b']) [0] [1, 0] (by decide)
    (h.1 (Tok.str ['a']) [0] (by decide)) (h.1 (Tok.str ['b']) [1, 0] (by decide))

/- ### Bit-reader lemmas -/

theorem unpackGo_length (k : Nat) : ∀ b : Nat, (unpackGo k b).length = k := by
  induction k with
  | zero => intro b; rfl
  | succ k ih => intro b; simp [unpackGo, ih]

theorem unpackGo_getD (k : Nat) : ∀ (b i : Nat), i < k →
    (unpackGo k b).getD i 0 = b / 2 ^ i % 2 := by
  induction k with
  | zero => intro b i h; omega
  | succ k ih =>
    intro b i h
    cases i with
    | zero => simp [unpackGo]
    | succ i =>
      show (unpackGo k (b / 2)).getD i 0 = _
      rw [ih (b / 2) i (by omega), Nat.div_div_eq_div_mul]
      congr 1
      rw [pow_succ']

theorem unpackByte_length (y : Nat) : (unpackByte y).length = 8 := by
  simp [unpackByte, unpackGo_length]

theorem unpackByte_msb_first (y i : Nat) (h : i < 8) :
    (unpackByte y).getD i 0 = y / 2 ^ (7 - i) % 2 := by
  have hlen : (unpackGo 8 y).length = 8 := unpackGo_length 8 y
  have hi : i < (unpackGo 8 y).reverse.length := by simpa [hlen] using h
  have hgd : (unpackByte y).getD i 0 = (unpackGo 8 y).reverse[i] := by
    simp [unpackByte, List.getD_eq_getElem?_getD, List.getElem?_eq_getElem hi]
  rw [hgd, List.getElem_reverse]
  have h7 : (unpackGo 8 y).length - 1 - i = 7 - i := by omega
  have hlt : 7 - i < 8 := by omega
  have := unpackGo_getD 8 y (7 - i) hlt
  rw [List.getD_eq_getElem?_getD, List.getElem?_eq_getElem (by omega)] at this
  simp only [h7]
  simpa using this

theorem popleft_bitbuf (s : InBS) (b : Nat) (rest : List Nat) (h : s.bit_buffer = b :: rest) :
    InBS.popleft s = .ok (b, ⟨s.buffer, rest⟩) := by
  simp [InBS.popleft, h]

theorem unpackByte_cons (y : Nat) : ∃ b bs, unpackByte y = b :: bs := by
  have hlen := unpackByte_length y
  cases hu : unpackByte y with
  | nil => rw [hu] at hlen; simp at hlen
  | cons b bs => exact ⟨b, bs, rfl⟩

theorem popleft_refill (s : InBS) (y : Nat) (ys : List Nat)
    (hb : s.bit_buffer = []) (hy : s.buffer = y :: ys) :
    InBS.popleft s = .ok ((unpackByte y).headD 0, ⟨ys, (unpackByte y).tail⟩) := by
  have hup : buffer_up s 1 = .ok ⟨ys, unpackByte y⟩ := by
    show buffer_upGo 1 s 1 = _
    simp [buffer_upGo, hb, hy]
  obtain ⟨b, bs, hcons⟩ := unpackByte_cons y
  have hlen : s.bit_buffer.length = 0 := by simp [hb]
  simp only [InBS.popleft, if_pos hlen, hup, hcons]
  simp [hcons]

theorem popleft_error_iff (s : InBS) :
    InBS.popleft s = .error .endOfInput ↔ s.bit_buffer = [] ∧ s.buffer = [] := by
  constructor
  · intro h
    cases hb : s.bit_buffer with
    | cons b rest =>
      rw [popleft_bitbuf s b rest hb] at h
      exact absurd h (by simp)
    | nil =>
      cases hy : s.buffer with
      | cons y ys =>
        rw [popleft_refill s y ys hb hy] at h
        exact absurd h (by simp)
      | nil => exact ⟨rfl, rfl⟩
  · rintro ⟨hb, hy⟩
    have hup : buffer_up s 1 = .error .endOfInput := by
      show buffer_upGo 1 s 1 = _
      simp [buffer_upGo, hb, hy]
    have hlen : s.bit_buffer.length = 0 := by simp [hb]
    simp only [InBS.popleft, if_pos hlen, hup]

theorem popleft_avail_ok (s : InBS) (b : Nat) (s2 : InBS)
    (h : InBS.popleft s = .ok (b, s2)) : availBits s = b :: availBits s2 := by
  cases hb : s.bit_buffer with
  | cons b2 rest =>
    rw [popleft_bitbuf s b2 rest hb] at h
    injection h with h2
    cases h2
    simp [availBits, hb]
  | nil =>
    cases hy : s.buffer with
    | nil =>
      rw [(popleft_error_iff s).mpr ⟨hb, hy⟩] at h
      exact absurd h (by simp)
    | cons y ys =>
      rw [popleft_refill s y ys hb hy] at h
      injection h with h2
      cases h2
      obtain ⟨b2, bs, hcons⟩ := unpackByte_cons y
      simp [availBits, hb, hy, hcons]

/-- Claim C6: each `popleft` call returns exactly one bit; when the bit
deque is nonempty no byte is pulled; when it is empty exactly one more
source byte is pulled and unpacked as 8 bits most-significant-bit first;
and the call fails with `EndOfInput` (the `IndexError` of the source) if
and only if the byte source is exhausted before the bit can be
produced. -/
theorem popleft_contract (s : InBS) :
    (∀ b rest, s.bit_buffer = b :: rest → InBS.popleft s = .ok (b, ⟨s.buffer, rest⟩)) ∧
    (∀ y ys, s.bit_buffer = [] → s.buffer = y :: ys →
      InBS.popleft s = .ok ((unpackByte y).headD 0, ⟨ys, (unpackByte y).tail⟩)) ∧
    (∀ y, (unpackByte y).length = 8 ∧ ∀ i, i < 8 →
      (unpackByte y).getD i 0 = y / 2 ^ (7 - i) % 2) ∧
    (InBS.popleft s = .error .endOfInput ↔ s.bit_buffer = [] ∧ s.buffer = []) :=
  ⟨fun b rest h => popleft_bitbuf s b rest h,
   fun y ys hb hy => popleft_refill s y ys hb hy,
   fun y => ⟨unpackByte_length y, fun i hi => unpackByte_msb_first y i hi⟩,
   popleft_error_iff s⟩

theorem popleft_contract_witness :
    InBS.popleft ⟨[], [1, 0]⟩ = .ok (1, ⟨[], [0]⟩) ∧
    InBS.popleft ⟨[128], []⟩ = .ok (1, ⟨[], [0, 0, 0, 0, 0, 0, 0]⟩) ∧
    InBS.popleft ⟨[], []⟩ = .error .endOfInput := by
  refine ⟨(popleft_contract ⟨[], [1, 0]⟩).1 1 [0] rfl, ?_, ?_⟩
  · have h := (popleft_contract ⟨[128], []⟩).2.1 128 [] rfl rfl
    rw [h]
    rfl
  · exact (popleft_contract ⟨[], []⟩).2.2.2.mpr ⟨rfl, rfl⟩

/- ### Decoder refinement -/

theorem decode_refines_decodeSpec (t : HTree) : ∀ (s : InBS),
    (∀ v s2, decode t s = .ok (v, s2) → decodeSpec t (availBits s) = some (v, availBits s2)) ∧
    (∀ e, decode t s = .error e → e = .endOfInput ∧ decodeSpec t (availBits s) = none) := by
  induction t with
  | leaf v =>
    intro s
    constructor
    · intro v2 s2 h
      injection h with h2
      cases h2
      rfl
    · intro e h
      exact absurd h (by simp [decode])
  | node l r ihl ihr =>
    intro s
    cases hpop : InBS.popleft s with
    | error e =>
      cases e
      have hpair := (popleft_error_iff s).mp hpop
      have hav : availBits s = [] := by simp [availBits, hpair.1, hpair.2]
      have herr : decode (HTree.node l r) s = .error DErr.endOfInput := by
        simp [decode, hpop]
      constructor
      · intro v s2 h
        rw [herr] at h
        exact absurd h (by simp)
      · intro e2 h
        rw [herr] at h
        injection h with h2
        subst h2
        rw [hav]
        exact ⟨rfl, rfl⟩
    | ok bs2 =>
      obtain ⟨bit, s2⟩ := bs2
      have hav : availBits s = bit :: availBits s2 := popleft_avail_ok s bit s2 hpop
      have hdec : decode (HTree.node l r) s
          = if bit = 0 then decode l s2 else decode r s2 := by
        simp [decode, hpop]
      by_cases hbit : bit = 0
      · subst hbit
        rw [if_pos rfl] at hdec
        constructor
        · intro v s3 h
          rw [hdec] at h
          rw [hav]
          show decodeSpec l (availBits s2) = _
          exact (ihl s2).1 v s3 h
        · intro e h
          rw [hdec] at h
          obtain ⟨he, hnone⟩ := (ihl s2).2 e h
          rw [hav]
          exact ⟨he, by show decodeSpec l (availBits s2) = none; exact hnone⟩
      · rw [if_neg hbit] at hdec
        constructor
        · intro v s3 h
          rw [hdec] at h
          rw [hav]
          show (if bit = 0 then decodeSpec l (availBits s2) else decodeSpec r (availBits s2)) = _
          rw [if_neg hbit]
          exact (ihr s2).1 v s3 h
        · intro e h
          rw [hdec] at h
          obtain ⟨he, hnone⟩ := (ihr s2).2 e h
          rw [hav]
          refine ⟨he, ?_⟩
          show (if bit = 0 then decodeSpec l (availBits s2) else decodeSpec r (availBits s2)) = none
          rw [if_neg hbit]
          exact hnone

/-- Claim C4: the decoder is the claimed state machine.  On the flattened
remaining bits, `decode` walks from the root (left on 0, right on 1):
success returns the reached leaf's symbol with exactly the unread rest,
and failure happens exactly when the bits run out mid-descent, with the
`EndOfInput`/`TruncatedStream` error and no partial symbol.  The
`decompress` loop, given a decoded sentinel, terminates successfully
emitting nothing further (the sentinel itself is not emitted and the
returned output never depends on the state after it); given any other
symbol it emits it and restarts from the root; a decode failure is
surfaced as the loop's failure. -/
theorem decoder_state_machine (t : HTree) (s : InBS) :
    (∀ v s2, decode t s = .ok (v, s2) → decodeSpec t (availBits s) = some (v, availBits s2)) ∧
    (∀ e, decode t s = .error e → e = .endOfInput ∧ decodeSpec t (availBits s) = none) ∧
    (∀ n s2, decode t s = .ok (EOF_SYMBOL, s2) → decompressFuel (n+1) t s = some (.ok [])) ∧
    (∀ n v s2, decode t s = .ok (v, s2) → v ≠ EOF_SYMBOL →
      decompressFuel (n+1) t s
        = (decompressFuel n t s2).map (fun r => r.map (fun toks => v :: toks))) ∧
    (∀ n e, decode t s = .error e → decompressFuel (n+1) t s = some (.error e)) := by
  obtain ⟨hok, herr⟩ := decode_refines_decodeSpec t s
  refine ⟨hok, herr, ?_, ?_, ?_⟩
  · intro n s2 h
    simp [decompressFuel, h]
  · intro n v s2 h hv
    simp [decompressFuel, h, hv]
  · intro n e h
    simp [decompressFuel, h]

theorem decoder_state_machine_witness :
    decodeSpec (HTree.node (HTree.leaf (Tok.str ['a'])) (HTree.leaf Tok.eof)) [1]
      = some (Tok.eof, []) ∧
    decompressFuel 1 (HTree.node (HTree.leaf (Tok.str ['a'])) (HTree.leaf Tok.eof)) ⟨[], [1]⟩
      = some (.ok []) ∧
    decompressFuel 1 (HTree.node (HTree.leaf (Tok.str ['a'])) (HTree.leaf Tok.eof)) ⟨[], []⟩
      = some (.error .endOfInput) := by
  have h := decoder_state_machine (HTree.node (HTree.leaf (Tok.str ['a'])) (HTree.leaf Tok.eof))
    (⟨[], [1]⟩ : InBS)
  have h2 := decoder_state_machine (HTree.node (HTree.leaf (Tok.str ['a'])) (HTree.leaf Tok.eof))
    (⟨[], []⟩ : InBS)
  refine ⟨?_, h.2.2.1 0 ⟨[], []⟩ rfl, h2.2.2.2.2 0 DErr.endOfInput rfl⟩
  have := h.1 Tok.eof ⟨[], []⟩ rfl
  simpa [availBits] using this

/- ### Word tokenizer lemmas -/

theorem dropWhile_cons_not {α : Type} (p : α → Bool) (l : List α) (c : α) (cs : List α)
    (h : l.dropWhile p = c :: cs) : p c = false := by
  have := List.head?_dropWhile_not p l
  rw [h] at this
  simpa using this

theorem word_tokenizeGo_fuel_succ : ∀ (fuel : Nat) (s : List Char), s.length ≤ fuel →
    word_tokenizeGo (fuel+1) s = word_tokenizeGo fuel s := by
  intro fuel
  induction fuel with
  | zero =>
    intro s hs
    obtain rfl : s = [] := List.length_eq_zero.mp (Nat.le_zero.mp hs)
    rfl
  | succ fuel ih =>
    intro s hs
    show (match s.dropWhile (fun c => !(isAlpha c)) with
      | [] => (s.takeWhile (fun c => !(isAlpha c))).map (fun c => [c])
      | rest => (s.takeWhile (fun c => !(isAlpha c))).map (fun c => [c])
          ++ [rest.takeWhile (fun c => isAlpha c)]
          ++ word_tokenizeGo (fuel+1) (rest.dropWhile (fun c => isAlpha c))) =
      (match s.dropWhile (fun c => !(isAlpha c)) with
      | [] => (s.takeWhile (fun c => !(isAlpha c))).map (fun c => [c])
      | rest => (s.takeWhile (fun c => !(isAlpha c))).map (fun c => [c])
          ++ [rest.takeWhile (fun c => isAlpha c)]
          ++ word_tokenizeGo fuel (rest.dropWhile (fun c => isAlpha c)))
    cases hrest : s.dropWhile (fun c => !(isAlpha c)) with
    | nil => rfl
    | cons c cs =>
      have hc : isAlpha c = true := by
        have := dropWhile_cons_not _ s c cs hrest
        simpa using this
      have hdrop : (c :: cs).dropWhile (fun c => isAlpha c) = cs.dropWhile (fun c => isAlpha c) := by
        simp [List.dropWhile_cons, hc]
      have hlen1 : (c :: cs).length ≤ s.length :=
        (List.dropWhile_sublist (l := s) (fun c => !(isAlpha c))).length_le.trans_eq' (by rw [hrest])
      have hlen2 : (cs.dropWhile (fun c => isAlpha c)).length ≤ fuel := by
        have h1 : (cs.dropWhile (fun c => isAlpha c)).length ≤ cs.length :=
          (List.dropWhile_sublist (l := cs) (fun c => isAlpha c)).length_le
        have hcc : (c :: cs).length = cs.length + 1 := by simp
        omega
      simp only [hdrop]
      rw [ih _ hlen2]

theorem word_tokenizeGo_fuel : ∀ (fuel : Nat) (s : List Char), s.length ≤ fuel →
    word_tokenizeGo fuel s = word_tokenize s := by
  intro fuel
  induction fuel with
  | zero =>
    intro s hs
    obtain rfl : s = [] := List.length_eq_zero.mp (Nat.le_zero.mp hs)
    rfl
  | succ fuel ih =>
    intro s hs
    rcases Nat.lt_or_ge fuel s.length with h | h
    · have hlen : s.length = fuel + 1 := by omega
      rw [word_tokenize, hlen]
    · rw [word_tokenizeGo_fuel_succ fuel s h, ih s h]

theorem word_tokenize_cons_nonalpha (c : Char) (cs : List Char) (hc : isAlpha c = false) :
    word_tokenize (c :: cs) = [c] :: word_tokenize cs := by
  have hrw : word_tokenizeGo (cs.length + 1) cs = word_tokenize cs :=
    word_tokenizeGo_fuel (cs.length + 1) cs (by omega)
  rw [← hrw]
  show word_tokenizeGo ((c :: cs).length) (c :: cs) = _
  simp only [List.length_cons, word_tokenizeGo]
  simp only [List.takeWhile_cons, List.dropWhile_cons, hc, Bool.not_false, if_true]
  cases hrest : cs.dropWhile (fun x => !(isAlpha x)) with
  | nil => simp
  | cons d ds => simp

theorem word_tokenize_cons_alpha (c : Char) (cs : List Char) (hc : isAlpha c = true) :
    word_tokenize (c :: cs) = (c :: cs.takeWhile (fun x => isAlpha x))
      :: word_tokenize (cs.dropWhile (fun x => isAlpha x)) := by
  show word_tokenizeGo ((c :: cs).length) (c :: cs) = _
  simp only [List.length_cons, word_tokenizeGo]
  have hlen : ((cs.dropWhile (fun x => isAlpha x))).length ≤ cs.length :=
    (List.dropWhile_sublist (l := cs) (fun x => isAlpha x)).length_le
  simp [List.takeWhile_cons, List.dropWhile_cons, hc, word_tokenizeGo_fuel cs.length _ hlen]

theorem specWordScanGo_fuel_succ : ∀ (fuel : Nat) (s : List Char), s.length ≤ fuel →
    specWordScanGo (fuel+1) s = specWordScanGo fuel s := by
  intro fuel
  induction fuel with
  | zero =>
    intro s hs
    obtain rfl : s = [] := List.length_eq_zero.mp (Nat.le_zero.mp hs)
    rfl
  | succ fuel ih =>
    intro s hs
    cases s with
    | nil => rfl
    | cons c cs =>
      have hcs : cs.length ≤ fuel := by
        have : (c :: cs).length = cs.length + 1 := by simp
        omega
      show (if isAlpha c then _ else _) = (if isAlpha c then _ else _)
      by_cases hc : isAlpha c = true
      · rw [if_pos hc, if_pos hc]
        have hdl : ((cs.dropWhile (fun x => isAlpha x))).length ≤ fuel :=
          le_trans (List.dropWhile_sublist (l := cs) (fun x => isAlpha x)).length_le hcs
        rw [ih _ hdl]
      · rw [if_neg hc, if_neg hc, ih _ hcs]

theorem specWordScanGo_fuel : ∀ (fuel : Nat) (s : List Char), s.length ≤ fuel →
    specWordScanGo fuel s = specWordScan s := by
  intro fuel
  induction fuel with
  | zero =>
    intro s hs
    obtain rfl : s = [] := List.length_eq_zero.mp (Nat.le_zero.mp hs)
    rfl
  | succ fuel ih =>
    intro s hs
    rcases Nat.lt_or_ge fuel s.length with h | h
    · have hlen : s.length = fuel + 1 := by omega
      rw [specWordScan, hlen]
    · rw [specWordScanGo_fuel_succ fuel s h, ih s h]

theorem specWordScan_cons (c : Char) (cs : List Char) :
    specWordScan (c :: cs) = if isAlpha c
      then (c :: cs.takeWhile (fun x => isAlpha x))
        :: specWordScan (cs.dropWhile (fun x => isAlpha x))
      else [c] :: specWordScan cs := by
  show specWordScanGo ((c :: cs).length) (c :: cs) = _
  simp only [List.length_cons, specWordScanGo]
  have hdl : ((cs.dropWhile (fun x => isAlpha x))).length ≤ cs.length :=
    (List.dropWhile_sublist (l := cs) (fun x => isAlpha x)).length_le
  by_cases hc : isAlpha c = true
  · rw [if_pos hc, if_pos hc, specWordScanGo_fuel cs.length _ hdl]
  · rw [if_neg hc, if_neg hc, specWordScanGo_fuel cs.length cs le_rfl]

theorem word_tokenize_eq_specWordScan_aux : ∀ (n : Nat) (s : List Char), s.length ≤ n →
    word_tokenize s = specWordScan s := by
  intro n
  induction n with
  | zero =>
    intro s hs
    obtain rfl : s = [] := List.length_eq_zero.mp (Nat.le_zero.mp hs)
    rfl
  | succ n ih =>
    intro s hs
    cases s with
    | nil => rfl
    | cons c cs =>
      have hcs : cs.length ≤ n := by
        have : (c :: cs).length = cs.length + 1 := by simp
        omega
      rw [specWordScan_cons]
      by_cases hc : isAlpha c = true
      · rw [if_pos hc, word_tokenize_cons_alpha c cs hc]
        have hdl : ((cs.dropWhile (fun x => isAlpha x))).length ≤ n :=
          le_trans (List.dropWhile_sublist (l := cs) (fun x => isAlpha x)).length_le hcs
        rw [ih _ hdl]
      · rw [if_neg hc, word_tokenize_cons_nonalpha c cs (by simpa using hc), ih _ hcs]

theorem word_tokenize_flatten_aux : ∀ (n : Nat) (s : List Char), s.length ≤ n →
    (word_tokenize s).flatten = s := by
  intro n
  induction n with
  | zero =>
    intro s hs
    obtain rfl : s = [] := List.length_eq_zero.mp (Nat.le_zero.mp hs)
    rfl
  | succ n ih =>
    intro s hs
    cases s with
    | nil => rfl
    | cons c cs =>
      have hcs : cs.length ≤ n := by
        have : (c :: cs).length = cs.length + 1 := by simp
        omega
      by_cases hc : isAlpha c = true
      · rw [word_tokenize_cons_alpha c cs hc]
        have hdl : ((cs.dropWhile (fun x => isAlpha x))).length ≤ n :=
          le_trans (List.dropWhile_sublist (l := cs) (fun x => isAlpha x)).length_le hcs
        simp only [List.flatten_cons, ih _ hdl]
        simp [List.takeWhile_append_dropWhile]
      · rw [word_tokenize_cons_nonalpha c cs (by simpa using hc)]
        simp only [List.flatten_cons, ih _ hcs]
        rfl

/-- Claim C5: word-mode tokenization scans left to right: a maximal run of
alphabetic characters becomes one word token, every other character its
own single-character token (this is exactly what `specWordScan`, written
from the spec's wording, computes, and `word_tokenize` equals it);
concatenating the tokens restores the input with no gaps or overlaps; the
word-mode `tokenize` appends exactly one sentinel after the tokens; and
the input "go go!" tokenizes to ["go", " ", "go", "!"] plus the
sentinel. -/
theorem word_tokenize_correct :
    (∀ s : List Char, word_tokenize s = specWordScan s) ∧
    (∀ s : List Char, (word_tokenize s).flatten = s) ∧
    (∀ input : List Char, tokenize input SymbolModel.word
      = (word_tokenize input).map Tok.str ++ [EOF_SYMBOL]) ∧
    word_tokenize ['g', 'o', ' ', 'g', 'o', '!'] = [['g', 'o'], [' '], ['g', 'o'], ['!']] ∧
    tokenize ['g', 'o', ' ', 'g', 'o', '!'] SymbolModel.word
      = [Tok.str ['g', 'o'], Tok.str [' '], Tok.str ['g', 'o'], Tok.str ['!'], Tok.eof] :=
  ⟨fun s => word_tokenize_eq_specWordScan_aux s.length s le_rfl,
   fun s => word_tokenize_flatten_aux s.length s le_rfl,
   fun _ => rfl,
   by decide,
   by decide⟩

/- ### The write_eof padding slip and its consequences -/

/-- Claim C2 (code bug witness): `write_eof` computes the padding as
`len(buffer) % 8` instead of the distance to the next byte boundary, so
when the total is not congruent to 0 or 4 mod 8 the buffer stays
unaligned and `flush` leaves bits behind: from a fresh stream,
`write_eof [1,1]` emits no byte at all and strands `[1,1,0,0]` (the two
data bits included) in the pending buffer, which is never flushed
again. -/
theorem write_eof_padding_bug :
    (OutBS.write_eof ⟨[], []⟩ [1, 1]).out = [] ∧
    (OutBS.write_eof ⟨[], []⟩ [1, 1]).buffer = [1, 1, 0, 0] := by
  decide

/-- Claim C3 (code bug witness): writing the single bit 1 through the
writer's terminal operation produces an empty byte sequence, so reading
the produced bytes back gives an empty bit stream of which the original
sequence `[1]` is not a prefix. -/
theorem bit_roundtrip_bug :
    ((OutBS.write_eof ⟨[], []⟩ [1]).out.map unpackByte).flatten = [] ∧
    ¬ ∃ rest, ((OutBS.write_eof ⟨[], []⟩ [1]).out.map unpackByte).flatten = [1] ++ rest := by
  refine ⟨by decide, ?_⟩
  rintro ⟨rest, h⟩
  rw [(by decide : ((OutBS.write_eof ⟨[], []⟩ [1]).out.map unpackByte).flatten = ([] : List Nat))] at h
  exact absurd h (by simp)

/-- Claim C1 (code bug witness): the round trip fails on input "a" in
character mode.  The two code bits (for 'a' and the sentinel) plus the
wrong padding of `write_eof` total 4 bits, so `flush` emits no byte: the
compressed file is empty, and decompression fails with end of input
instead of returning "a". -/
theorem roundtrip_bug :
    roundtrip ['a'] SymbolModel.char = none ∧
    roundtrip ['a'] SymbolModel.char ≠ some ['a'] ∧
    (compress (tokenize ['a'] SymbolModel.char)
      (build_tree (calc_probabilites (tokenize ['a'] SymbolModel.char)))).toOption
      = some ⟨[], [1, 0, 0, 0]⟩ ∧
    decompressFuel 2 (build_tree (calc_probabilites (tokenize ['a'] SymbolModel.char)))
      ⟨[], []⟩ = some (.error .endOfInput) := by
  refine ⟨by decide, by decide, by decide, by decide⟩

/-- Claim C10: the whole pipeline is deterministic: two runs on equal
inputs under equal symbol models produce identical trees and identical
compressed output.  In this embedding every stage (first-occurrence
symbol enumeration, the heap with its insertion-order-determined
tie-breaking, and encoding) is a pure function, so determinism is
function application congruence. -/
theorem pipeline_deterministic (input1 input2 : List Char) (m1 m2 : SymbolModel)
    (h1 : input1 = input2) (h2 : m1 = m2) :
    build_tree (calc_probabilites (tokenize input1 m1))
      = build_tree (calc_probabilites (tokenize input2 m2)) ∧
    compress (tokenize input1 m1)
        (build_tree (calc_probabilites (tokenize input1 m1)))
      = compress (tokenize input2 m2)
        (build_tree (calc_probabilites (tokenize input2 m2))) := by
  subst h1
  subst h2
  exact ⟨rfl, rfl⟩

theorem pipeline_deterministic_witness :
    build_tree (calc_probabilites (tokenize ['a'] SymbolModel.char))
      = build_tree (calc_probabilites (tokenize ['a'] SymbolModel.char)) ∧
    compress (tokenize ['a'] SymbolModel.char)
        (build_tree (calc_probabilites (tokenize ['a'] SymbolModel.char)))
      = compress (tokenize ['a'] SymbolModel.char)
        (build_tree (calc_probabilites (tokenize ['a'] SymbolModel.char))) :=
  pipeline_deterministic ['a'] ['a'] SymbolModel.char SymbolModel.char rfl rfl
